import Mathlib

set_option maxHeartbeats 1000000

/-!
Verification of the CRep EM inference engine (`src/pgm/model/crep.py`) against its
natural-language specification.  Numeric arrays are embedded as lists of rationals;
numpy's elementwise operations become `List.map` / `List.zipWith`; the in-place
mutation of the model object becomes explicit state passing on `CRepState`.
Helpers that live outside `src/` (the base class `ModelClass._lambda_nz`, the
sparse contraction `sp_uttkrp` / `sp_uttkrp_assortative` from `input/tools.py`,
and `_lambda0_full` from `output/evaluate.py`) are modelled from the spec, as
marked in their doc comments.
-/

namespace CRepModel

/-- Matrices of rationals: a list of row vectors (node index first). -/
abbrev Mat := List (List ℚ)

/-- Rank-3 tensors of rationals, indexed (layer, row, column). -/
abbrev Ten3 := List (List (List ℚ))

/-- The affinity tensor `self.w`: shape (L, K, K) in the general mode and
(L, K) in the assortative mode, mirroring the two shapes it takes in the source. -/
inductive WTensor where
  | general (t : Ten3)
  | assort (m : Mat)
deriving DecidableEq

/-- All entries of an affinity tensor, flattened to one list. -/
def WTensor.entries : WTensor → List ℚ
  | .general t => (t.map List.flatten).flatten
  | .assort m => m.flatten

/-- Entry lookup in a row vector with out-of-range default 0. -/
def getQ (r : List ℚ) (k : ℕ) : ℚ := r.getD k 0

/-- Row lookup in a matrix with out-of-range default `[]`. -/
def getRow (m : Mat) (i : ℕ) : List ℚ := m.getD i []

/-- Layer lookup in a rank-3 tensor with out-of-range default `[]`. -/
def getLayer (t : Ten3) (a : ℕ) : Mat := t.getD a []

/-- Column sum of a matrix (numpy `m.sum(axis=0)` at column `k`). -/
def colSum (m : Mat) (k : ℕ) : ℚ := (m.map (fun r => getQ r k)).sum

/-- Nonzero data of the adjacency tensor: the coordinates `subs_nz`
(layer, source, target), the values `A[subs_nz]`, and the transposed values
`data_T_vals` aligned to the same coordinates. -/
structure DataNZ where
  subs : List (ℕ × ℕ × ℕ)
  vals : List ℚ
  tVals : List ℚ
deriving DecidableEq

/-- The configuration flags of one `fit` call that the EM update engine reads. -/
structure Config where
  K : ℕ
  errMax : ℚ
  constrained : Bool
  undirected : Bool
  fixEta : Bool
  fixCommunities : Bool
  fixW : Bool
deriving DecidableEq

/-- The mutable parameter state of the model object: memberships `u`, `v`,
affinity `w`, reciprocity `eta`, their "old" snapshots, and the cache
(`lambda0_nz`, `M_nz`, `data_M_nz`). -/
structure CRepState where
  u : Mat
  v : Mat
  w : WTensor
  eta : ℚ
  uOld : Mat
  vOld : Mat
  wOld : WTensor
  etaOld : ℚ
  lambda0Nz : List ℚ
  MNz : List ℚ
  dataMNz : List ℚ
deriving DecidableEq

/-- Modelled from the spec: the expected edge rate lambda0 at one position,
built "from U, V, W" (spec section 3) with the bilinear contraction of the
affinity tensor described in section 4.1 — general mode
`sum_k sum_q u[i,k] * w[a,k,q] * v[j,q]`, assortative (diagonal) mode
`sum_k u[i,k] * w[a,k] * v[j,k]`.  This stands in for the base class method
`ModelClass._lambda_nz`, whose source is not under `src/`. -/
def lambdaAt (K : ℕ) (u v : Mat) (w : WTensor) (a i j : ℕ) : ℚ :=
  match w with
  | .general t =>
      ((List.range K).map (fun k =>
        ((List.range K).map (fun q =>
          getQ (getRow u i) k * getQ (getRow (getLayer t a) k) q * getQ (getRow v j) q)).sum)).sum
  | .assort m =>
      ((List.range K).map (fun k =>
        getQ (getRow u i) k * getQ (getRow m a) k * getQ (getRow v j) k)).sum

/-- Modelled from the spec: `lambda0_nz`, the expected edge rate at the nonzero
positions (stands in for `ModelClass._lambda_nz`, not under `src/`). -/
def lambda_nz (K : ℕ) (u v : Mat) (w : WTensor) (subs : List (ℕ × ℕ × ℕ)) : List ℚ :=
  subs.map (fun p => lambdaAt K u v w p.1 p.2.1 p.2.2)

/-- Embeds `CRep._update_cache` (crep.py lines 279-304):
`lambda0_nz = _lambda_nz(subs_nz)`; `M_nz = lambda0_nz + eta * data_T_vals`;
`M_nz[M_nz == 0] = 1`; `data_M_nz = vals / M_nz`; `data_M_nz[M_nz == 0] = 0`. -/
def update_cache (cfg : Config) (st : CRepState) (d : DataNZ) : CRepState :=
  let lam := lambda_nz cfg.K st.u st.v st.w d.subs
  let m0 := List.zipWith (fun x t => x + st.eta * t) lam d.tVals
  let m1 := m0.map (fun x => if x = 0 then 1 else x)
  let dm := List.zipWith (fun a m => a / m) d.vals m1
  let dm2 := List.zipWith (fun m x => if m = 0 then 0 else x) m1 dm
  { st with lambda0Nz := lam, MNz := m1, dataMNz := dm2 }

/-! Auxiliary list lemmas used to reason about the cache update. -/

lemma zipWith_mask_of_ne_zero (m1 l : List ℚ) (h : ∀ m ∈ m1, m ≠ 0)
    (hl : l.length ≤ m1.length) :
    List.zipWith (fun m x => if m = 0 then 0 else x) m1 l = l := by
  induction m1 generalizing l with
  | nil =>
    cases l with
    | nil => rfl
    | cons x xs => simp at hl
  | cons m ms ih =>
    cases l with
    | nil => rfl
    | cons x xs =>
      simp only [List.zipWith]
      rw [if_neg (h m (by simp))]
      congr 1
      exact ih xs (fun y hy => h y (by simp [hy])) (by simpa using hl)

lemma getD_map_q (f : ℚ → ℚ) (l : List ℚ) (i : ℕ) (h : i < l.length) :
    (l.map f).getD i 0 = f (l.getD i 0) := by
  induction l generalizing i with
  | nil => simp at h
  | cons x xs ih =>
    cases i with
    | zero => rfl
    | succ n =>
      simp only [List.map, List.getD_cons_succ]
      exact ih n (by simpa using h)

lemma getD_zipWith_q (f : ℚ → ℚ → ℚ) (a b : List ℚ) (i : ℕ)
    (ha : i < a.length) (hb : i < b.length) :
    (List.zipWith f a b).getD i 0 = f (a.getD i 0) (b.getD i 0) := by
  induction a generalizing b i with
  | nil => simp at ha
  | cons x xs ih =>
    cases b with
    | nil => simp at hb
    | cons y ys =>
      cases i with
      | zero => rfl
      | succ n =>
        simp only [List.zipWith, List.getD_cons_succ]
        exact ih ys n (by simpa using ha) (by simpa using hb)

lemma update_cache_MNz_len (cfg : Config) (st : CRepState) (d : DataNZ)
    (ht : d.tVals.length = d.subs.length) :
    (update_cache cfg st d).MNz.length = d.subs.length := by
  simp [update_cache, lambda_nz, ht]

lemma update_cache_MNz_ne_zero (cfg : Config) (st : CRepState) (d : DataNZ) :
    ∀ m ∈ (update_cache cfg st d).MNz, m ≠ 0 := by
  intro m hm
  simp only [update_cache, List.mem_map] at hm
  obtain ⟨y, -, rfl⟩ := hm
  by_cases hy : y = 0 <;> simp [hy]

lemma update_cache_dataMNz_eq (cfg : Config) (st : CRepState) (d : DataNZ) :
    (update_cache cfg st d).dataMNz =
      List.zipWith (fun a m => a / m) d.vals (update_cache cfg st d).MNz := by
  show List.zipWith _ _ _ = _
  apply zipWith_mask_of_ne_zero _ _ (update_cache_MNz_ne_zero cfg st d)
  simp only [update_cache]
  exact le_of_eq_of_le (List.length_zipWith ..) (min_le_right _ _)

/-- C10: after `_update_cache` no entry of the stored `M_nz` is zero — every zero
of `lambda0_nz + eta * data_T_vals` was replaced by 1 before the division — so the
division producing `data_M_nz` never has a zero denominator, and the subsequent
line `data_M_nz[M_nz == 0] = 0` is a no-op: the stored `data_M_nz` is exactly the
plain elementwise quotient `vals / M_nz`. -/
theorem claim10_cache_no_zero_denominator (cfg : Config) (st : CRepState) (d : DataNZ) :
    (∀ m ∈ (update_cache cfg st d).MNz, m ≠ 0) ∧
    (update_cache cfg st d).dataMNz =
      List.zipWith (fun a m => a / m) d.vals (update_cache cfg st d).MNz :=
  ⟨update_cache_MNz_ne_zero cfg st d, update_cache_dataMNz_eq cfg st d⟩

/-- C2 (amended): after `_update_cache`, at each aligned nonzero position `i`,
the stored `M_nz` equals `lambda0_nz + eta * data_T_vals` when that sum is
nonzero and equals 1 when the sum is zero, and the stored `data_M_nz` is
`vals / M_nz` with the stored (post-replacement) `M_nz`. -/
theorem claim2_cache_values (cfg : Config) (st : CRepState) (d : DataNZ) (i : ℕ)
    (hi : i < d.subs.length) (hv : d.vals.length = d.subs.length)
    (ht : d.tVals.length = d.subs.length) :
    ((update_cache cfg st d).MNz.getD i 0 =
      (if (lambda_nz cfg.K st.u st.v st.w d.subs).getD i 0 + st.eta * d.tVals.getD i 0 = 0
       then 1
       else (lambda_nz cfg.K st.u st.v st.w d.subs).getD i 0 + st.eta * d.tVals.getD i 0)) ∧
    ((update_cache cfg st d).dataMNz.getD i 0 =
      d.vals.getD i 0 / (update_cache cfg st d).MNz.getD i 0) := by
  have hlam : (lambda_nz cfg.K st.u st.v st.w d.subs).length = d.subs.length := by
    simp [lambda_nz]
  have hm0len : (List.zipWith (fun x t => x + st.eta * t)
      (lambda_nz cfg.K st.u st.v st.w d.subs) d.tVals).length = d.subs.length := by
    rw [List.length_zipWith, hlam, ht, min_self]
  have hMlen := update_cache_MNz_len cfg st d ht
  have hM : (update_cache cfg st d).MNz.getD i 0 =
      (if (lambda_nz cfg.K st.u st.v st.w d.subs).getD i 0 + st.eta * d.tVals.getD i 0 = 0
       then 1
       else (lambda_nz cfg.K st.u st.v st.w d.subs).getD i 0 + st.eta * d.tVals.getD i 0) := by
    show ((List.zipWith _ _ _).map _).getD i 0 = _
    rw [getD_map_q _ _ _ (by rw [hm0len]; exact hi),
        getD_zipWith_q _ _ _ _ (by rw [hlam]; exact hi) (by rw [ht]; exact hi)]
  refine ⟨hM, ?_⟩
  have hdm := update_cache_dataMNz_eq cfg st d
  rw [hdm, getD_zipWith_q _ _ _ _ (by rw [hv]; exact hi) (by rw [hMlen]; exact hi)]

/-! The EM update functions. -/

/-- The near-zero thresholding shared by the four parameter updates
(`low_values_indices = param < err_max; param[low_values_indices] = 0`). -/
def cutSmall (em x : ℚ) : ℚ := if x < em then 0 else x

/-- Elementwise thresholding of a matrix. -/
def cutMat (em : ℚ) (m : Mat) : Mat := m.map (fun r => r.map (cutSmall em))

/-- Elementwise thresholding of a rank-3 tensor. -/
def cutTen (em : ℚ) (t : Ten3) : Ten3 :=
  t.map (fun layer => layer.map (fun r => r.map (cutSmall em)))

/-- Maximum absolute value of a list (numpy `np.amax(abs(.))`, 0 on empty). -/
def maxAbsList (l : List ℚ) : ℚ := l.foldr (fun x m => max |x| m) 0

/-- Elementwise difference of two matrices. -/
def matSub (A B : Mat) : Mat :=
  List.zipWith (fun r s => List.zipWith (fun a b => a - b) r s) A B

/-- Sup-norm distance `np.amax(abs(A - B))` between two matrices. -/
def distMat (A B : Mat) : ℚ := maxAbsList (matSub A B).flatten

/-- Elementwise difference of two rank-3 tensors. -/
def tenSub (A B : Ten3) : Ten3 := List.zipWith matSub A B

/-- Sup-norm distance between two affinity tensors (0 on a shape mismatch,
which never occurs in the source where `w` and `w_old` share a shape). -/
def distW : WTensor → WTensor → ℚ
  | .general a, .general b => maxAbsList ((tenSub a b).map List.flatten).flatten
  | .assort a, .assort b => distMat a b
  | _, _ => 0

/-- The constrained row renormalization shared by `_update_U` and `_update_V`:
`row_sums = m.sum(axis=1); m[row_sums > 0] /= row_sums[row_sums > 0]`
(rows with nonpositive sum are left untouched). -/
def normalizeRows (m : Mat) : Mat :=
  m.map (fun r => if 0 < r.sum then r.map (fun x => x / r.sum) else r)

/-- Embeds `CRep._update_eta` (crep.py lines 374-405):
`Deta = denominator` if one is passed, else `data.sum()`;
`eta *= (data_M_nz * data_T_vals).sum() / Deta`; returns `|eta - eta_old|`
and stores the new `eta` into `eta_old`. -/
def update_eta (st : CRepState) (d : DataNZ) (dataSum : ℚ) (denominator : Option ℚ) :
    ℚ × CRepState :=
  let Deta := denominator.getD dataSum
  let eta1 := st.eta * ((List.zipWith (fun a b => a * b) st.dataMNz d.tVals).sum / Deta)
  (|eta1 - st.etaOld|, { st with eta := eta1, etaOld := eta1 })

/-- Modelled from the spec: the sparse contraction `sp_uttkrp` /
`sp_uttkrp_assortative` from `input/tools.py` (not under `src/`) as dispatched by
`CRep._update_membership` (crep.py lines 576-606).  Following spec section 4.1:
for each node, the weighted sum over its nonzero edges of
`data_M_nz[edge] * (affinity applied to the other node's membership vector)`,
accumulated by node index; mode 1 accumulates over the source index using `v`
and `w`, mode 2 over the target index using `u` and the transposed-role `w`;
the assortative variant uses the diagonal affinity. -/
def update_membership (K : ℕ) (st : CRepState) (d : DataNZ) (m : ℕ) : Mat :=
  let rows := if m = 1 then st.u.length else st.v.length
  (List.range rows).map (fun i =>
    (List.range K).map (fun k =>
      ((List.zip d.subs st.dataMNz).map (fun p =>
        if m = 1 then
          if p.1.2.1 = i then
            p.2 * (match st.w with
              | .general t => ((List.range K).map (fun q =>
                  getQ (getRow (getLayer t p.1.1) k) q * getQ (getRow st.v p.1.2.2) q)).sum
              | .assort wm => getQ (getRow wm p.1.1) k * getQ (getRow st.v p.1.2.2) k)
          else 0
        else
          if p.1.2.2 = i then
            p.2 * (match st.w with
              | .general t => ((List.range K).map (fun q =>
                  getQ (getRow (getLayer t p.1.1) q) k * getQ (getRow st.u p.1.2.1) q)).sum
              | .assort wm => getQ (getRow wm p.1.1) k * getQ (getRow st.u p.1.2.1) k)
          else 0)).sum))

/-- Embeds `CRep._update_U` (crep.py lines 407-445):
`u = u_old * membership(mode 1)`; if unconstrained, zero the communities whose
structural normalizer `Z_uk` (from column sums of `v` and layer sums of `w`) is
zero and divide those with `Z_uk > 0`; if constrained, divide each row with
positive sum by its sum; threshold entries below `err_max` to 0; return
`amax |u - u_old|` and store `u` into `u_old`. -/
def update_U (cfg : Config) (st : CRepState) (d : DataNZ) : ℚ × CRepState :=
  let memb := update_membership cfg.K st d 1
  let u1 := List.zipWith (fun r mr => List.zipWith (fun a b => a * b) r mr) st.uOld memb
  let u2 :=
    if !cfg.constrained then
      let Zuk : ℕ → ℚ :=
        match st.w with
        | .general t => fun k =>
            ((List.range cfg.K).map (fun q =>
              colSum st.v q * (t.map (fun layer => getQ (getRow layer k) q)).sum)).sum
        | .assort wm => fun k => colSum st.v k * (wm.map (fun layer => getQ layer k)).sum
      u1.map (fun r => (List.range r.length).map (fun k =>
        if Zuk k = 0 then 0
        else if 0 < Zuk k then getQ r k / Zuk k
        else getQ r k))
    else
      normalizeRows u1
  let u3 := cutMat cfg.errMax u2
  (distMat u3 st.uOld, { st with u := u3, uOld := u3 })

/-- Embeds `CRep._update_V` (crep.py lines 447-489): same as `_update_U` with
`v` in place of `u`, the current `v` (not `v_old`) as the multiplicand, mode 2
membership, and the transposed-role affinity in the unconstrained normalizer. -/
def update_V (cfg : Config) (st : CRepState) (d : DataNZ) : ℚ × CRepState :=
  let memb := update_membership cfg.K st d 2
  let v1 := List.zipWith (fun r mr => List.zipWith (fun a b => a * b) r mr) st.v memb
  let v2 :=
    if !cfg.constrained then
      let Zvk : ℕ → ℚ :=
        match st.w with
        | .general t => fun k =>
            ((List.range cfg.K).map (fun q =>
              colSum st.u q * (t.map (fun layer => getQ (getRow layer q) k)).sum)).sum
        | .assort wm => fun k => colSum st.u k * (wm.map (fun layer => getQ layer k)).sum
      v1.map (fun r => (List.range r.length).map (fun k =>
        if Zvk k = 0 then 0
        else if 0 < Zvk k then getQ r k / Zvk k
        else getQ r k))
    else
      normalizeRows v1
  let v3 := cutMat cfg.errMax v2
  (distMat v3 st.vOld, { st with v := v3, vOld := v3 })

/-- Embeds `CRep._update_W` (crep.py lines 491-532): multiply `w` elementwise by
the per-layer accumulated contraction `uttkrp_DKQ` (the bincount over the layer
index), divide entries whose normalizer `Z[k,q] = colsum(u)[k] * colsum(v)[q]`
is positive, threshold, return `amax |w - w_old|` and store `w_old`.  The source
only calls this when `w` has the general (L, K, K) shape. -/
def update_W (cfg : Config) (st : CRepState) (d : DataNZ) : ℚ × CRepState :=
  match st.w with
  | .general wg =>
    let uttkrp : ℕ → ℕ → ℕ → ℚ := fun a k q =>
      ((List.zip d.subs st.dataMNz).map (fun p =>
        if p.1.1 = a then p.2 * getQ (getRow st.u p.1.2.1) k * getQ (getRow st.v p.1.2.2) q
        else 0)).sum
    let w1 := wg.mapIdx (fun a layer =>
      layer.mapIdx (fun k row => row.mapIdx (fun q x => x * uttkrp a k q)))
    let Z : ℕ → ℕ → ℚ := fun k q => colSum st.u k * colSum st.v q
    let w2 := w1.map (fun layer => layer.mapIdx (fun k row => row.mapIdx (fun q x =>
      if 0 < Z k q then x / Z k q else x)))
    let w3 := cutTen cfg.errMax w2
    (distW (WTensor.general w3) st.wOld, { st with w := .general w3, wOld := .general w3 })
  | .assort _ => (0, st)

/-- Embeds `CRep._update_W_assortative` (crep.py lines 534-574): diagonal
variant of `_update_W`; note its normalizer uses the column sums of `u_old` and
`v_old` (lines 563-564), unlike the general variant which uses `u` and `v`. -/
def update_W_assortative (cfg : Config) (st : CRepState) (d : DataNZ) : ℚ × CRepState :=
  match st.w with
  | .assort wa =>
    let uttkrp : ℕ → ℕ → ℚ := fun a k =>
      ((List.zip d.subs st.dataMNz).map (fun p =>
        if p.1.1 = a then p.2 * getQ (getRow st.u p.1.2.1) k * getQ (getRow st.v p.1.2.2) k
        else 0)).sum
    let w1 := wa.mapIdx (fun a layer => layer.mapIdx (fun k x => x * uttkrp a k))
    let Z : ℕ → ℚ := fun k => colSum st.uOld k * colSum st.vOld k
    let w2 := w1.map (fun layer => layer.mapIdx (fun k x =>
      if 0 < Z k then x / Z k else x))
    let w3 := cutMat cfg.errMax w2
    (distW (WTensor.assort w3) st.wOld, { st with w := .assort w3, wOld := .assort w3 })
  | .general _ => (0, st)

/-- The source line `if not self.assortative: _update_W else: _update_W_assortative`
(crep.py lines 363-367); the assortative flag determines the shape `w` was given,
so the dispatch is on the shape of `w`. -/
def update_W_dispatch (cfg : Config) (st : CRepState) (d : DataNZ) : ℚ × CRepState :=
  match st.w with
  | .general _ => update_W cfg st d
  | .assort _ => update_W_assortative cfg st d

/-- Embeds `CRep._update_em` (crep.py lines 306-372): eta update (skipped when
fixed), cache refresh, U update and refresh (skipped when communities fixed),
then either `v = u; v_old = v; d_v = d_u` and a refresh when `undirected`, or a
V update and refresh, then the W update and refresh (skipped when `w` fixed);
returns `(d_u, d_v, d_w, d_eta)` and the mutated state. -/
def update_em (cfg : Config) (st : CRepState) (d : DataNZ) (dataSum E : ℚ) :
    (ℚ × ℚ × ℚ × ℚ) × CRepState :=
  let pEta := if !cfg.fixEta then update_eta st d dataSum (some E) else (0, st)
  let st2 := update_cache cfg pEta.2 d
  let pU :=
    if !cfg.fixCommunities then
      let q := update_U cfg st2 d
      (q.1, update_cache cfg q.2 d)
    else (0, st2)
  let pV :=
    if cfg.undirected then
      (pU.1, update_cache cfg { pU.2 with v := pU.2.u, vOld := pU.2.u } d)
    else if !cfg.fixCommunities then
      let q := update_V cfg pU.2 d
      (q.1, update_cache cfg q.2 d)
    else (0, pU.2)
  let pW :=
    if !cfg.fixW then
      let q := update_W_dispatch cfg pV.2 d
      (q.1, update_cache cfg q.2 d)
    else (0, pV.2)
  ((pU.1, pV.1, pW.1, pEta.1), pW.2)

/-! Generic list lemmas for membership and nonnegativity. -/

lemma mem_of_zipWith {α β γ : Type} {f : α → β → γ} {a : List α} {b : List β} {x : γ}
    (hx : x ∈ List.zipWith f a b) : ∃ p ∈ a, ∃ q ∈ b, x = f p q := by
  induction a generalizing b with
  | nil => simp at hx
  | cons y ys ih =>
    cases b with
    | nil => simp at hx
    | cons z zs =>
      simp only [List.zipWith, List.mem_cons] at hx
      rcases hx with rfl | hx
      · exact ⟨y, by simp, z, by simp, rfl⟩
      · obtain ⟨p, hp, q, hq, rfl⟩ := ih hx
        exact ⟨p, by simp [hp], q, by simp [hq], rfl⟩

lemma mem_getD_or {α : Type} (l : List α) (i : ℕ) (dflt : α) :
    l.getD i dflt ∈ l ∨ l.getD i dflt = dflt := by
  rcases lt_or_ge i l.length with h | h
  · left
    rw [List.getD_eq_getElem _ _ h]
    exact List.getElem_mem h
  · right
    exact List.getD_eq_default _ _ h

lemma getQ_nonneg (r : List ℚ) (h : ∀ x ∈ r, 0 ≤ x) (k : ℕ) : 0 ≤ getQ r k := by
  unfold getQ
  rcases mem_getD_or r k 0 with hm | hm
  · exact h _ hm
  · rw [hm]

lemma matEntry_nonneg (M : Mat) (h : ∀ r ∈ M, ∀ x ∈ r, 0 ≤ x) (i k : ℕ) :
    0 ≤ getQ (getRow M i) k := by
  apply getQ_nonneg
  intro x hx
  rcases mem_getD_or M i [] with hm | hm
  · exact h _ hm x hx
  · rw [getRow, hm] at hx
    simp at hx

lemma wEntry_general_nonneg (t : Ten3) (hw : ∀ x ∈ (WTensor.general t).entries, 0 ≤ x)
    (a k q : ℕ) : 0 ≤ getQ (getRow (getLayer t a) k) q := by
  apply getQ_nonneg
  intro x hx
  rcases mem_getD_or t a [] with hl | hl
  · rcases mem_getD_or (getLayer t a) k [] with hr | hr
    · apply hw
      simp only [WTensor.entries, List.mem_flatten, List.mem_map]
      exact ⟨(getLayer t a).flatten, ⟨getLayer t a, by rw [getLayer]; exact hl, rfl⟩,
        List.mem_flatten.2 ⟨_, hr, hx⟩⟩
    · rw [getRow, hr] at hx
      simp at hx
  · rw [getRow, getLayer, hl] at hx
    simp at hx

lemma wEntry_assort_nonneg (mW : Mat) (hw : ∀ x ∈ (WTensor.assort mW).entries, 0 ≤ x)
    (a k : ℕ) : 0 ≤ getQ (getRow mW a) k := by
  apply getQ_nonneg
  intro x hx
  rcases mem_getD_or mW a [] with hm | hm
  · apply hw
    simp only [WTensor.entries]
    exact List.mem_flatten.2 ⟨_, hm, hx⟩
  · rw [getRow, hm] at hx
    simp at hx

lemma zipWith_mul_sum_nonneg (a b : List ℚ) (ha : ∀ x ∈ a, 0 ≤ x) (hb : ∀ x ∈ b, 0 ≤ x) :
    0 ≤ (List.zipWith (fun x y => x * y) a b).sum := by
  apply List.sum_nonneg
  intro x hx
  obtain ⟨p, hp, q, hq, rfl⟩ := mem_of_zipWith hx
  exact mul_nonneg (ha p hp) (hb q hq)

lemma matMul_entry_nonneg (A B : Mat) (hA : ∀ r ∈ A, ∀ x ∈ r, 0 ≤ x)
    (hB : ∀ r ∈ B, ∀ x ∈ r, 0 ≤ x) :
    ∀ r ∈ List.zipWith (fun r s => List.zipWith (fun a b => a * b) r s) A B,
      ∀ x ∈ r, 0 ≤ x := by
  intro r hr x hx
  obtain ⟨p, hp, q, hq, rfl⟩ := mem_of_zipWith hr
  obtain ⟨c, hc, e, he, rfl⟩ := mem_of_zipWith hx
  exact mul_nonneg (hA p hp c hc) (hB q hq e he)

lemma update_membership_nonneg (K : ℕ) (st : CRepState) (d : DataNZ) (m : ℕ)
    (hu : ∀ r ∈ st.u, ∀ x ∈ r, 0 ≤ x) (hv : ∀ r ∈ st.v, ∀ x ∈ r, 0 ≤ x)
    (hw : ∀ x ∈ st.w.entries, 0 ≤ x) (hdm : ∀ x ∈ st.dataMNz, 0 ≤ x) :
    ∀ r ∈ update_membership K st d m, ∀ x ∈ r, 0 ≤ x := by
  intro r hr x hx
  simp only [update_membership, List.mem_map] at hr
  obtain ⟨i, -, rfl⟩ := hr
  simp only [List.mem_map] at hx
  obtain ⟨k, -, rfl⟩ := hx
  apply List.sum_nonneg
  intro y hy
  simp only [List.mem_map] at hy
  obtain ⟨p, hp, rfl⟩ := hy
  obtain ⟨ps, pv⟩ := p
  have hpd : pv ∈ st.dataMNz := (List.of_mem_zip hp).2
  rcases hws : st.w with t | wm <;>
    simp only [hws] <;>
    split <;> (try split) <;>
    first
      | rfl
      | · apply mul_nonneg (hdm _ hpd)
          first
            | apply List.sum_nonneg
              intro z hz
              simp only [List.mem_map] at hz
              obtain ⟨q, -, rfl⟩ := hz
              exact mul_nonneg (wEntry_general_nonneg t (hws ▸ hw) _ _ _)
                (matEntry_nonneg _ (by assumption) _ _)
            | exact mul_nonneg (wEntry_assort_nonneg wm (hws ▸ hw) _ _)
                (matEntry_nonneg _ (by assumption) _ _)

/-! Thresholding lemmas. -/

lemma cutSmall_zero_or_ge (em x : ℚ) : cutSmall em x = 0 ∨ em ≤ cutSmall em x := by
  unfold cutSmall
  split
  · exact Or.inl rfl
  · next h => exact Or.inr (le_of_not_lt h)

lemma cutMat_entry (em : ℚ) (M : Mat) :
    ∀ r ∈ cutMat em M, ∀ x ∈ r, x = 0 ∨ em ≤ x := by
  intro r hr x hx
  simp only [cutMat, List.mem_map] at hr
  obtain ⟨r0, -, rfl⟩ := hr
  simp only [List.mem_map] at hx
  obtain ⟨y, -, rfl⟩ := hx
  exact cutSmall_zero_or_ge em y

lemma cutTen_entry (em : ℚ) (T : Ten3) :
    ∀ x ∈ (WTensor.general (cutTen em T)).entries, x = 0 ∨ em ≤ x := by
  intro x hx
  simp only [WTensor.entries, cutTen, List.mem_flatten, List.mem_map] at hx
  obtain ⟨s, ⟨layer, ⟨l0, -, rfl⟩, rfl⟩, hx⟩ := hx
  simp only [List.mem_flatten, List.mem_map] at hx
  obtain ⟨row, ⟨r0, -, rfl⟩, hx⟩ := hx
  simp only [List.mem_map] at hx
  obtain ⟨y, -, rfl⟩ := hx
  exact cutSmall_zero_or_ge em y

lemma zero_or_ge_imp_nonneg {em x : ℚ} (hem : 0 < em) (h : x = 0 ∨ em ≤ x) : 0 ≤ x := by
  rcases h with rfl | h
  · exact le_refl 0
  · exact le_trans (le_of_lt hem) h

/-- C1: every entry produced by `_update_U`, `_update_V`, `_update_W` and
`_update_W_assortative` is either exactly 0 (anything below the floor `err_max`
was thresholded to 0) or at least `err_max`, hence nonnegative; and
`_update_eta` keeps `eta` nonnegative given nonnegative cache values, transposed
values and denominator. -/
theorem claim1_nonnegativity (cfg : Config) (st : CRepState) (d : DataNZ) (dataSum E : ℚ)
    (hem : 0 < cfg.errMax) (heta : 0 ≤ st.eta)
    (hdm : ∀ x ∈ st.dataMNz, 0 ≤ x) (htv : ∀ x ∈ d.tVals, 0 ≤ x) (hE : 0 ≤ E) :
    (∀ r ∈ (update_U cfg st d).2.u, ∀ x ∈ r, 0 ≤ x ∧ (x = 0 ∨ cfg.errMax ≤ x)) ∧
    (∀ r ∈ (update_V cfg st d).2.v, ∀ x ∈ r, 0 ≤ x ∧ (x = 0 ∨ cfg.errMax ≤ x)) ∧
    (∀ t, st.w = WTensor.general t →
      ∀ x ∈ ((update_W cfg st d).2.w).entries, 0 ≤ x ∧ (x = 0 ∨ cfg.errMax ≤ x)) ∧
    (∀ mW, st.w = WTensor.assort mW →
      ∀ x ∈ ((update_W_assortative cfg st d).2.w).entries, 0 ≤ x ∧ (x = 0 ∨ cfg.errMax ≤ x)) ∧
    0 ≤ (update_eta st d dataSum (some E)).2.eta := by
  refine ⟨?_, ?_, ?_, ?_, ?_⟩
  · intro r hr x hx
    have hsh : ∃ M, (update_U cfg st d).2.u = cutMat cfg.errMax M := ⟨_, rfl⟩
    obtain ⟨M, hM⟩ := hsh
    rw [hM] at hr
    have := cutMat_entry cfg.errMax M r hr x hx
    exact ⟨zero_or_ge_imp_nonneg hem this, this⟩
  · intro r hr x hx
    have hsh : ∃ M, (update_V cfg st d).2.v = cutMat cfg.errMax M := ⟨_, rfl⟩
    obtain ⟨M, hM⟩ := hsh
    rw [hM] at hr
    have := cutMat_entry cfg.errMax M r hr x hx
    exact ⟨zero_or_ge_imp_nonneg hem this, this⟩
  · intro t hwt x hx
    have hW : ∃ T, (update_W cfg st d).2.w = WTensor.general (cutTen cfg.errMax T) := by
      simp only [update_W, hwt]
      exact ⟨_, rfl⟩
    obtain ⟨T, hT⟩ := hW
    rw [hT] at hx
    have := cutTen_entry cfg.errMax T x hx
    exact ⟨zero_or_ge_imp_nonneg hem this, this⟩
  · intro mW hwm x hx
    have hW : ∃ M, (update_W_assortative cfg st d).2.w = WTensor.assort (cutMat cfg.errMax M) := by
      simp only [update_W_assortative, hwm]
      exact ⟨_, rfl⟩
    obtain ⟨M, hM⟩ := hW
    rw [hM] at hx
    simp only [WTensor.entries, List.mem_flatten] at hx
    obtain ⟨r, hr, hx⟩ := hx
    have := cutMat_entry cfg.errMax M r hr x hx
    exact ⟨zero_or_ge_imp_nonneg hem this, this⟩
  · show 0 ≤ st.eta * _
    apply mul_nonneg heta
    apply div_nonneg _ (by simpa using hE)
    exact zipWith_mul_sum_nonneg _ _ hdm htv

/-- A tiny concrete state used as input by several witnesses: one node, one
layer, one community, all memberships and affinities zero, eta zero. -/
def zeroState : CRepState :=
  { u := [[0]], v := [[0]], w := .assort [[0]], eta := 0,
    uOld := [[0]], vOld := [[0]], wOld := .assort [[0]], etaOld := 0,
    lambda0Nz := [], MNz := [], dataMNz := [] }

/-- A one-edge data set aligned with `zeroState`. -/
def oneEdgeData : DataNZ := { subs := [(0, 0, 0)], vals := [5], tVals := [1] }

/-- A default configuration aligned with `zeroState`. -/
def baseCfg : Config :=
  { K := 1, errMax := 1 / 1000000, constrained := true, undirected := false,
    fixEta := false, fixCommunities := false, fixW := false }

/-- C2 counterexample: with zero memberships and eta = 0 the sum
`lambda0_nz + eta * data_T_vals` vanishes at the nonzero position, and the stored
`M_nz` is then 1, not that sum — so the claim "M_nz = lambda0_nz + eta * A_T_vals
at every nonzero position" is false as stated. -/
theorem claim2_counterexample :
    (update_cache baseCfg zeroState oneEdgeData).MNz.getD 0 0 ≠
      (update_cache baseCfg zeroState oneEdgeData).lambda0Nz.getD 0 0 +
        (update_cache baseCfg zeroState oneEdgeData).eta * oneEdgeData.tVals.getD 0 0 := by
  norm_num [update_cache, lambda_nz, lambdaAt, zeroState, oneEdgeData, baseCfg,
    getQ, getRow, getLayer]

/-- C2 witness: the amended cache equations instantiated on the concrete
one-edge input. -/
theorem claim2_cache_values_witness :
    (0 < oneEdgeData.subs.length ∧ oneEdgeData.vals.length = oneEdgeData.subs.length ∧
      oneEdgeData.tVals.length = oneEdgeData.subs.length) ∧
    (((update_cache baseCfg zeroState oneEdgeData).MNz.getD 0 0 =
      (if (lambda_nz baseCfg.K zeroState.u zeroState.v zeroState.w oneEdgeData.subs).getD 0 0 +
          zeroState.eta * oneEdgeData.tVals.getD 0 0 = 0
       then 1
       else (lambda_nz baseCfg.K zeroState.u zeroState.v zeroState.w oneEdgeData.subs).getD 0 0 +
          zeroState.eta * oneEdgeData.tVals.getD 0 0)) ∧
    ((update_cache baseCfg zeroState oneEdgeData).dataMNz.getD 0 0 =
      oneEdgeData.vals.getD 0 0 / (update_cache baseCfg zeroState oneEdgeData).MNz.getD 0 0)) :=
  ⟨⟨by decide, by decide, by decide⟩,
    claim2_cache_values baseCfg zeroState oneEdgeData 0 (by decide) (by decide) (by decide)⟩

/-- C1 witness: the nonnegativity theorem instantiated on the concrete one-edge
input with denominator 1. -/
theorem claim1_nonnegativity_witness :
    (0 < baseCfg.errMax ∧ 0 ≤ zeroState.eta ∧ (∀ x ∈ zeroState.dataMNz, 0 ≤ x) ∧
      (∀ x ∈ oneEdgeData.tVals, 0 ≤ x) ∧ (0 : ℚ) ≤ 1) ∧
    ((∀ r ∈ (update_U baseCfg zeroState oneEdgeData).2.u,
        ∀ x ∈ r, 0 ≤ x ∧ (x = 0 ∨ baseCfg.errMax ≤ x)) ∧
      (∀ r ∈ (update_V baseCfg zeroState oneEdgeData).2.v,
        ∀ x ∈ r, 0 ≤ x ∧ (x = 0 ∨ baseCfg.errMax ≤ x)) ∧
      (∀ t, zeroState.w = WTensor.general t →
        ∀ x ∈ ((update_W baseCfg zeroState oneEdgeData).2.w).entries,
          0 ≤ x ∧ (x = 0 ∨ baseCfg.errMax ≤ x)) ∧
      (∀ mW, zeroState.w = WTensor.assort mW →
        ∀ x ∈ ((update_W_assortative baseCfg zeroState oneEdgeData).2.w).entries,
          0 ≤ x ∧ (x = 0 ∨ baseCfg.errMax ≤ x)) ∧
      0 ≤ (update_eta zeroState oneEdgeData 1 (some 1)).2.eta) :=
  ⟨⟨by norm_num [baseCfg], by norm_num [zeroState], by simp [zeroState],
      by norm_num [oneEdgeData], by norm_num⟩,
    claim1_nonnegativity baseCfg zeroState oneEdgeData 1 1 (by norm_num [baseCfg])
      (by norm_num [zeroState]) (by simp [zeroState]) (by norm_num [oneEdgeData])
      (by norm_num)⟩

/-! Row-sum lemmas for the constrained policy (claim C5). -/

lemma sum_map_div (l : List ℚ) (s : ℚ) : (l.map (fun x => x / s)).sum = l.sum / s := by
  induction l with
  | nil => simp
  | cons x xs ih => simp [ih, add_div]

lemma sum_map_sub_q (l : List ℚ) (f g : ℚ → ℚ) :
    (l.map f).sum - (l.map g).sum = (l.map (fun x => f x - g x)).sum := by
  induction l with
  | nil => simp
  | cons x xs ih =>
    simp only [List.map_cons, List.sum_cons]
    linarith [ih]

lemma sum_map_le_length_mul (l : List ℚ) (f : ℚ → ℚ) (c : ℚ) (h : ∀ x ∈ l, f x ≤ c) :
    (l.map f).sum ≤ l.length * c := by
  induction l with
  | nil => simp
  | cons x xs ih =>
    simp only [List.map_cons, List.sum_cons, List.length_cons]
    have h1 := h x (by simp)
    have h2 := ih (fun y hy => h y (by simp [hy]))
    push_cast
    linarith

/-- After the constrained normalization and the thresholding, a row with
nonnegative entries sums either to exactly 0 or to within `length * err_max`
of 1. -/
lemma constrained_row_bound (em : ℚ) (hem : 0 < em) (r0 : List ℚ)
    (h0 : ∀ x ∈ r0, 0 ≤ x) :
    ((if 0 < r0.sum then r0.map (fun x => x / r0.sum) else r0).map (cutSmall em)).sum = 0 ∨
      |((if 0 < r0.sum then r0.map (fun x => x / r0.sum) else r0).map (cutSmall em)).sum - 1| ≤
        ((if 0 < r0.sum then r0.map (fun x => x / r0.sum) else r0).map (cutSmall em)).length * em := by
  by_cases hs : 0 < r0.sum
  · right
    rw [if_pos hs]
    set r1 := r0.map (fun x => x / r0.sum) with hr1
    have hsum1 : r1.sum = 1 := by
      rw [hr1, sum_map_div, div_self (ne_of_gt hs)]
    have h1 : ∀ x ∈ r1, 0 ≤ x := by
      intro x hx
      rw [hr1] at hx
      simp only [List.mem_map] at hx
      obtain ⟨y, hy, rfl⟩ := hx
      exact div_nonneg (h0 y hy) (le_of_lt hs)
    have hup : (r1.map (cutSmall em)).sum ≤ r1.sum := by
      calc (r1.map (cutSmall em)).sum ≤ (r1.map id).sum := by
            apply List.sum_le_sum
            intro i hi
            unfold cutSmall
            split
            · exact h1 i hi
            · exact le_refl _
        _ = r1.sum := by rw [List.map_id]
    have hlow : r1.sum - (r1.map (cutSmall em)).sum ≤ r1.length * em := by
      have hsub : r1.sum - (r1.map (cutSmall em)).sum =
          (r1.map (fun x => x - cutSmall em x)).sum := by
        conv_lhs => rw [show r1.sum = (r1.map id).sum by rw [List.map_id]]
        exact sum_map_sub_q r1 id (cutSmall em)
      rw [hsub]
      apply sum_map_le_length_mul
      intro x hx
      unfold cutSmall
      split
      · next h => linarith
      · linarith
    have hlen : (r1.map (cutSmall em)).length = r1.length := by simp
    rw [abs_le]
    have hnn : (0 : ℚ) ≤ ((r1.map (cutSmall em)).length : ℚ) * em := by
      apply mul_nonneg _ (le_of_lt hem)
      positivity
    constructor
    · rw [hlen]
      rw [hsum1] at hlow
      linarith
    · rw [hsum1] at hup
      linarith
  · left
    rw [if_neg hs]
    apply List.sum_eq_zero
    intro y hy
    simp only [List.mem_map] at hy
    obtain ⟨x, hx, rfl⟩ := hy
    have hx0 : x = 0 := by
      have hle : x ≤ r0.sum := List.single_le_sum h0 x hx
      have hs0 : r0.sum ≤ 0 := not_lt.1 hs
      have := h0 x hx
      linarith
    rw [hx0]
    unfold cutSmall
    rw [if_pos hem]

/-- C5: under the constrained policy, after `_update_U` and `_update_V` every
row of the updated membership matrix sums either to exactly 0 or to within
`K * err_max` (the row length times the thresholding floor) of 1 — rows with
positive sum were renormalized to sum 1 and then thresholded, zero rows stayed
zero. -/
theorem claim5_constrained_row_sums (cfg : Config) (st : CRepState) (d : DataNZ)
    (hc : cfg.constrained = true) (hem : 0 < cfg.errMax)
    (huo : ∀ r ∈ st.uOld, ∀ x ∈ r, 0 ≤ x) (hu : ∀ r ∈ st.u, ∀ x ∈ r, 0 ≤ x)
    (hv : ∀ r ∈ st.v, ∀ x ∈ r, 0 ≤ x)
    (hw : ∀ x ∈ st.w.entries, 0 ≤ x) (hdm : ∀ x ∈ st.dataMNz, 0 ≤ x) :
    (∀ r ∈ (update_U cfg st d).2.u, r.sum = 0 ∨ |r.sum - 1| ≤ r.length * cfg.errMax) ∧
    (∀ r ∈ (update_V cfg st d).2.v, r.sum = 0 ∨ |r.sum - 1| ≤ r.length * cfg.errMax) := by
  constructor
  · intro r hr
    have hsh : (update_U cfg st d).2.u = cutMat cfg.errMax (normalizeRows
        (List.zipWith (fun r mr => List.zipWith (fun a b => a * b) r mr) st.uOld
          (update_membership cfg.K st d 1))) := by
      simp only [update_U, hc, Bool.not_true, Bool.false_eq_true, if_false]
    rw [hsh] at hr
    simp only [cutMat, normalizeRows, List.mem_map, List.map_map] at hr
    obtain ⟨r0, hr0, rfl⟩ := hr
    have h0 : ∀ x ∈ r0, 0 ≤ x :=
      matMul_entry_nonneg st.uOld (update_membership cfg.K st d 1) huo
        (update_membership_nonneg cfg.K st d 1 hu hv hw hdm) r0 hr0
    exact constrained_row_bound cfg.errMax hem r0 h0
  · intro r hr
    have hsh : (update_V cfg st d).2.v = cutMat cfg.errMax (normalizeRows
        (List.zipWith (fun r mr => List.zipWith (fun a b => a * b) r mr) st.v
          (update_membership cfg.K st d 2))) := by
      simp only [update_V, hc, Bool.not_true, Bool.false_eq_true, if_false]
    rw [hsh] at hr
    simp only [cutMat, normalizeRows, List.mem_map, List.map_map] at hr
    obtain ⟨r0, hr0, rfl⟩ := hr
    have h0 : ∀ x ∈ r0, 0 ≤ x :=
      matMul_entry_nonneg st.v (update_membership cfg.K st d 2) hv
        (update_membership_nonneg cfg.K st d 2 hu hv hw hdm) r0 hr0
    exact constrained_row_bound cfg.errMax hem r0 h0

/-- C5 witness: the constrained row-sum theorem instantiated on the concrete
one-edge input. -/
theorem claim5_constrained_row_sums_witness :
    (baseCfg.constrained = true ∧ 0 < baseCfg.errMax ∧
      (∀ r ∈ zeroState.uOld, ∀ x ∈ r, 0 ≤ x) ∧ (∀ r ∈ zeroState.u, ∀ x ∈ r, 0 ≤ x) ∧
      (∀ r ∈ zeroState.v, ∀ x ∈ r, 0 ≤ x) ∧ (∀ x ∈ zeroState.w.entries, 0 ≤ x) ∧
      (∀ x ∈ zeroState.dataMNz, 0 ≤ x)) ∧
    ((∀ r ∈ (update_U baseCfg zeroState oneEdgeData).2.u,
        r.sum = 0 ∨ |r.sum - 1| ≤ r.length * baseCfg.errMax) ∧
      (∀ r ∈ (update_V baseCfg zeroState oneEdgeData).2.v,
        r.sum = 0 ∨ |r.sum - 1| ≤ r.length * baseCfg.errMax)) :=
  ⟨⟨rfl, by norm_num [baseCfg], by norm_num [zeroState], by norm_num [zeroState],
      by norm_num [zeroState], by norm_num [zeroState, WTensor.entries], by simp [zeroState]⟩,
    claim5_constrained_row_sums baseCfg zeroState oneEdgeData rfl (by norm_num [baseCfg])
      (by norm_num [zeroState]) (by norm_num [zeroState]) (by norm_num [zeroState])
      (by norm_num [zeroState, WTensor.entries]) (by simp [zeroState])⟩

/-! Component-preservation lemmas: the cache refresh touches only the cache, and
the W updates touch neither `u` nor `v` (claims C6 and C3). -/

lemma update_cache_keeps_u (cfg : Config) (st : CRepState) (d : DataNZ) :
    (update_cache cfg st d).u = st.u := rfl

lemma update_cache_keeps_v (cfg : Config) (st : CRepState) (d : DataNZ) :
    (update_cache cfg st d).v = st.v := rfl

lemma update_cache_keeps_eta (cfg : Config) (st : CRepState) (d : DataNZ) :
    (update_cache cfg st d).eta = st.eta := rfl

lemma update_U_keeps_eta (cfg : Config) (st : CRepState) (d : DataNZ) :
    (update_U cfg st d).2.eta = st.eta := rfl

lemma update_V_keeps_eta (cfg : Config) (st : CRepState) (d : DataNZ) :
    (update_V cfg st d).2.eta = st.eta := rfl

lemma update_W_keeps_u (cfg : Config) (st : CRepState) (d : DataNZ) :
    (update_W cfg st d).2.u = st.u := by
  cases hw : st.w <;> simp only [update_W, hw]

lemma update_W_keeps_v (cfg : Config) (st : CRepState) (d : DataNZ) :
    (update_W cfg st d).2.v = st.v := by
  cases hw : st.w <;> simp only [update_W, hw]

lemma update_W_keeps_eta (cfg : Config) (st : CRepState) (d : DataNZ) :
    (update_W cfg st d).2.eta = st.eta := by
  cases hw : st.w <;> simp only [update_W, hw]

lemma update_W_assortative_keeps_u (cfg : Config) (st : CRepState) (d : DataNZ) :
    (update_W_assortative cfg st d).2.u = st.u := by
  cases hw : st.w <;> simp only [update_W_assortative, hw]

lemma update_W_assortative_keeps_v (cfg : Config) (st : CRepState) (d : DataNZ) :
    (update_W_assortative cfg st d).2.v = st.v := by
  cases hw : st.w <;> simp only [update_W_assortative, hw]

lemma update_W_assortative_keeps_eta (cfg : Config) (st : CRepState) (d : DataNZ) :
    (update_W_assortative cfg st d).2.eta = st.eta := by
  cases hw : st.w <;> simp only [update_W_assortative, hw]

lemma update_W_dispatch_keeps_u (cfg : Config) (st : CRepState) (d : DataNZ) :
    (update_W_dispatch cfg st d).2.u = st.u := by
  cases hw : st.w <;>
    simp only [update_W_dispatch, hw] <;>
    first
      | exact update_W_keeps_u cfg st d
      | exact update_W_assortative_keeps_u cfg st d

lemma update_W_dispatch_keeps_v (cfg : Config) (st : CRepState) (d : DataNZ) :
    (update_W_dispatch cfg st d).2.v = st.v := by
  cases hw : st.w <;>
    simp only [update_W_dispatch, hw] <;>
    first
      | exact update_W_keeps_v cfg st d
      | exact update_W_assortative_keeps_v cfg st d

lemma update_W_dispatch_keeps_eta (cfg : Config) (st : CRepState) (d : DataNZ) :
    (update_W_dispatch cfg st d).2.eta = st.eta := by
  cases hw : st.w <;>
    simp only [update_W_dispatch, hw] <;>
    first
      | exact update_W_keeps_eta cfg st d
      | exact update_W_assortative_keeps_eta cfg st d

/-- C6: if the `undirected` flag is set, then after a full `_update_em` step the
state satisfies `v = u` (V is assigned from U, with no independent update, and
the later W update and cache refreshes touch neither), and the returned
`d_v` equals the returned `d_u`. -/
theorem claim6_undirected_v_eq_u (cfg : Config) (st : CRepState) (d : DataNZ)
    (dataSum E : ℚ) (hund : cfg.undirected = true) :
    (update_em cfg st d dataSum E).2.v = (update_em cfg st d dataSum E).2.u ∧
    (update_em cfg st d dataSum E).1.2.1 = (update_em cfg st d dataSum E).1.1 := by
  cases hfe : cfg.fixEta <;> cases hfc : cfg.fixCommunities <;> cases hfw : cfg.fixW <;>
    simp [update_em, hund, hfe, hfc, hfw, update_cache_keeps_u, update_cache_keeps_v,
      update_W_dispatch_keeps_u, update_W_dispatch_keeps_v]

/-- A configuration with the undirected flag set, for the C6 witness. -/
def undirCfg : Config :=
  { K := 1, errMax := 1 / 1000000, constrained := true, undirected := true,
    fixEta := false, fixCommunities := false, fixW := false }

/-- C6 witness: the undirected theorem instantiated on the concrete one-edge
input. -/
theorem claim6_undirected_v_eq_u_witness :
    undirCfg.undirected = true ∧
    ((update_em undirCfg zeroState oneEdgeData 1 1).2.v =
        (update_em undirCfg zeroState oneEdgeData 1 1).2.u ∧
      (update_em undirCfg zeroState oneEdgeData 1 1).1.2.1 =
        (update_em undirCfg zeroState oneEdgeData 1 1).1.1) :=
  ⟨rfl, claim6_undirected_v_eq_u undirCfg zeroState oneEdgeData 1 1 rfl⟩

/-! The fit loop: once-computed denominator and the convergence-flag check. -/

/-- Embeds the once-per-fit computation `E = np.sum(data.vals)` (crep.py line
172): the total edge weight of the adjacency tensor, computed before the
realization loop and never recomputed. -/
def totalEdgeWeight (d : DataNZ) : ℚ := d.vals.sum

/-- The EM iteration of `fit`'s while loop (crep.py lines 201-206): each pass
calls `_update_em(data, data_T_vals, subs_nz, denominator=E)` with the same `E`
computed once before the realization loop.  The convergence checks, which can
stop the loop early but never touch the parameters, are not modelled here;
step `n` is the parameter state after `n` EM updates. -/
def fit_em_steps (cfg : Config) (d : DataNZ) (st : CRepState) : ℕ → CRepState
  | 0 => st
  | n + 1 =>
      (update_em cfg (fit_em_steps cfg d st n) d (totalEdgeWeight d) (totalEdgeWeight d)).2

lemma update_em_eta (cfg : Config) (s : CRepState) (d : DataNZ) (dataSum E : ℚ)
    (hfix : cfg.fixEta = false) :
    (update_em cfg s d dataSum E).2.eta =
      s.eta * ((List.zipWith (fun a b => a * b) s.dataMNz d.tVals).sum / E) := by
  cases hfc : cfg.fixCommunities <;> cases hfw : cfg.fixW <;> cases hund : cfg.undirected <;>
    simp [update_em, hfix, hfc, hfw, hund, update_cache_keeps_eta, update_U_keeps_eta,
      update_V_keeps_eta, update_W_dispatch_keeps_eta, update_eta]

/-- C3: when eta is not fixed, every EM step of the fit loop multiplies eta by
exactly `(data_M_nz * data_T_vals).sum / E`, where the denominator `E` is the
total edge weight computed once per fit before the loop (the same
`totalEdgeWeight d` at every step `n`), and that denominator is nonzero
whenever the total edge weight is positive, as the caller requires upstream. -/
theorem claim3_eta_update (cfg : Config) (d : DataNZ) (st : CRepState) (n : ℕ)
    (hfix : cfg.fixEta = false) (hE : 0 < totalEdgeWeight d) :
    (fit_em_steps cfg d st (n + 1)).eta =
      (fit_em_steps cfg d st n).eta *
        ((List.zipWith (fun a b => a * b) (fit_em_steps cfg d st n).dataMNz d.tVals).sum /
          totalEdgeWeight d) ∧
    totalEdgeWeight d ≠ 0 := by
  refine ⟨?_, ne_of_gt hE⟩
  have hstep : fit_em_steps cfg d st (n + 1) =
      (update_em cfg (fit_em_steps cfg d st n) d (totalEdgeWeight d) (totalEdgeWeight d)).2 :=
    rfl
  rw [hstep]
  exact update_em_eta cfg (fit_em_steps cfg d st n) d (totalEdgeWeight d)
    (totalEdgeWeight d) hfix

/-- C3 witness: the eta update theorem instantiated on the concrete one-edge
input at the first step. -/
theorem claim3_eta_update_witness :
    (baseCfg.fixEta = false ∧ 0 < totalEdgeWeight oneEdgeData) ∧
    ((fit_em_steps baseCfg oneEdgeData zeroState 1).eta =
      (fit_em_steps baseCfg oneEdgeData zeroState 0).eta *
        ((List.zipWith (fun a b => a * b)
          (fit_em_steps baseCfg oneEdgeData zeroState 0).dataMNz oneEdgeData.tVals).sum /
          totalEdgeWeight oneEdgeData) ∧
      totalEdgeWeight oneEdgeData ≠ 0) :=
  ⟨⟨rfl, by norm_num [totalEdgeWeight, oneEdgeData]⟩,
    claim3_eta_update baseCfg oneEdgeData zeroState 0 rfl
      (by norm_num [totalEdgeWeight, oneEdgeData])⟩

/-- The error condition raised by `log_and_raise_error` for an unsupported
convergence flag (crep.py lines 243-244). -/
inductive FitError where
  | invalidFlag
deriving DecidableEq

/-- Embeds the body of `fit`'s while loop (crep.py lines 201-244): the EM update
runs first (line 205); only afterwards is the convergence flag inspected, and a
flag other than "log" and "deltas" raises the configuration error (lines
243-244).  The returned state is the model state at the moment the body returns
or the error is raised — the Python exception leaves the already-applied
mutations on the model object in place.  The convergence bookkeeping of the two
supported branches, which does not touch the parameters, is not modelled. -/
def fit_loop_body (cfg : Config) (flag : String) (d : DataNZ) (dataSum E : ℚ)
    (st : CRepState) : CRepState × Option FitError :=
  let p := update_em cfg st d dataSum E
  if flag = "log" then (p.2, none)
  else if flag = "deltas" then (p.2, none)
  else (p.2, some FitError.invalidFlag)

/-- A concrete state whose eta moves under one EM update, for the C8
counterexample. -/
def movingState : CRepState :=
  { u := [[1]], v := [[1]], w := .assort [[1]], eta := 1,
    uOld := [[1]], vOld := [[1]], wOld := .assort [[1]], etaOld := 1,
    lambda0Nz := [1], MNz := [2], dataMNz := [2] }

/-- C8 counterexample: with an unsupported convergence flag the loop body still
performs the EM update before raising — eta has already changed when the error
is raised — refuting "no call to `_update_em` (and no parameter mutation)
happens before the configuration error is raised". -/
theorem claim8_counterexample :
    (fit_loop_body baseCfg "neither" oneEdgeData 1 1 movingState).1.eta ≠ movingState.eta ∧
    (fit_loop_body baseCfg "neither" oneEdgeData 1 1 movingState).2 =
      some FitError.invalidFlag := by
  constructor
  · show (update_em baseCfg movingState oneEdgeData 1 1).2.eta ≠ movingState.eta
    rw [update_em_eta baseCfg movingState oneEdgeData 1 1 rfl]
    norm_num [movingState, oneEdgeData]
  · rfl

/-- C8 (amended): an unsupported convergence flag always raises the descriptive
configuration error — never a silent default — but only at the end of the first
loop iteration: the body is exactly one `_update_em` call, whose parameter
mutations persist, followed by the raise. -/
theorem claim8_invalid_flag_after_one_update (cfg : Config) (flag : String)
    (d : DataNZ) (dataSum E : ℚ) (st : CRepState)
    (h1 : flag ≠ "log") (h2 : flag ≠ "deltas") :
    fit_loop_body cfg flag d dataSum E st =
      ((update_em cfg st d dataSum E).2, some FitError.invalidFlag) := by
  simp [fit_loop_body, h1, h2]

/-- C8 witness: the amended invalid-flag theorem instantiated on a concrete
unsupported flag. -/
theorem claim8_invalid_flag_witness :
    (("neither" : String) ≠ "log" ∧ ("neither" : String) ≠ "deltas") ∧
    fit_loop_body baseCfg "neither" oneEdgeData 1 1 zeroState =
      ((update_em baseCfg zeroState oneEdgeData 1 1).2, some FitError.invalidFlag) :=
  ⟨⟨by decide, by decide⟩,
    claim8_invalid_flag_after_one_update baseCfg "neither" oneEdgeData 1 1 zeroState
      (by decide) (by decide)⟩

/-! Extended values modelling numpy floating special values, and the
pseudo-log-likelihood evaluator. -/

/-- An IEEE-754-style extended value: a finite rational, +inf, -inf, or NaN.
Finite amounts are rationals; the finite branch of `np.log` is an uninterpreted
parameter wherever it appears, since no claim depends on its finite values. -/
inductive XR where
  | fin (q : ℚ)
  | pinf
  | ninf
  | nan
deriving DecidableEq

/-- IEEE addition: NaN absorbs, opposite infinities give NaN. -/
def XR.add : XR → XR → XR
  | .nan, _ => .nan
  | .fin _, .nan => .nan
  | .pinf, .nan => .nan
  | .ninf, .nan => .nan
  | .fin a, .fin b => .fin (a + b)
  | .fin _, .pinf => .pinf
  | .fin _, .ninf => .ninf
  | .pinf, .fin _ => .pinf
  | .pinf, .pinf => .pinf
  | .pinf, .ninf => .nan
  | .ninf, .fin _ => .ninf
  | .ninf, .ninf => .ninf
  | .ninf, .pinf => .nan

/-- IEEE multiplication: NaN absorbs, 0 * inf = NaN, sign rules otherwise. -/
def XR.mul : XR → XR → XR
  | .nan, _ => .nan
  | .fin _, .nan => .nan
  | .pinf, .nan => .nan
  | .ninf, .nan => .nan
  | .fin a, .fin b => .fin (a * b)
  | .fin a, .pinf => if a = 0 then .nan else if 0 < a then .pinf else .ninf
  | .fin a, .ninf => if a = 0 then .nan else if 0 < a then .ninf else .pinf
  | .pinf, .fin b => if b = 0 then .nan else if 0 < b then .pinf else .ninf
  | .ninf, .fin b => if b = 0 then .nan else if 0 < b then .ninf else .pinf
  | .pinf, .pinf => .pinf
  | .pinf, .ninf => .ninf
  | .ninf, .pinf => .ninf
  | .ninf, .ninf => .pinf

/-- The `np.isnan` test. -/
def XR.isNaN : XR → Bool
  | .nan => true
  | _ => false

/-- Sum of a list of extended values, accumulated left to right. -/
def XR.sumList (l : List XR) : XR := l.foldl XR.add (XR.fin 0)

/-- Modelled from numpy semantics of `np.log` at special points: NaN for a
negative argument, -inf at 0, and the finite logarithm (the uninterpreted
parameter `logFin`) for a positive argument. -/
def xlog (logFin : ℚ → ℚ) (q : ℚ) : XR :=
  if 0 < q then .fin (logFin q) else if q = 0 then .ninf else .nan

/-- A boolean mask over a dense (L, N, N) tensor. -/
abbrev Mask := List (List (List Bool))

/-- Modelled from the spec: `_lambda0_full` (from `output/evaluate.py`, not
under `src/`), the dense expected-rate tensor reconstructed from the current
U, V, W. -/
def lambda0_full (K L N : ℕ) (u v : Mat) (w : WTensor) : Ten3 :=
  (List.range L).map (fun a => (List.range N).map (fun i => (List.range N).map (fun j =>
    lambdaAt K u v w a i j)))

/-- Sum of all entries of a dense tensor. -/
def tenSum (t : Ten3) : ℚ := (t.map (fun layer => (layer.map List.sum).sum)).sum

/-- Sum of the entries of a dense tensor selected by a boolean mask
(numpy `t[mask.nonzero()].sum()`). -/
def maskedSum (mask : Mask) (t : Ten3) : ℚ :=
  (List.zipWith (fun ml tl =>
    (List.zipWith (fun mr tr =>
      (List.zipWith (fun b x => if b then x else 0) mr tr).sum) ml tl).sum) mask t).sum

/-- Embeds the value computed by `CRep._PSLikelihood` (crep.py lines 608-651):
`lambda0_ija = _lambda0_full(u, v, w)`; with a mask the lambda0 term and the
transposed-tensor term are summed over masked positions only (lines 632-639),
without a mask over everything (lines 640-644); then the term
`(A_nz * log(M_nz)).sum()` over the nonzero values and the cached `M_nz` is
added (lines 645-651).  `dataT` is the dense transposed adjacency tensor. -/
def PSLvalue (logFin : ℚ → ℚ) (K L N : ℕ) (dataT : Ten3) (mask : Option Mask)
    (st : CRepState) (d : DataNZ) : XR :=
  let lam := lambda0_full K L N st.u st.v st.w
  let base : ℚ :=
    match mask with
    | some m => -(maskedSum m lam) - st.eta * maskedSum m dataT
    | none => -(tenSum lam) - st.eta * tenSum dataT
  let alog := List.zipWith (fun a mv => XR.mul (XR.fin a) (xlog logFin mv)) d.vals st.MNz
  XR.add (XR.fin base) (XR.sumList alog)

/-- Embeds the tail of `CRep._PSLikelihood` (crep.py lines 653-658): raise the
NumericalError condition when the computed value is NaN, otherwise return it. -/
def PSLikelihood (logFin : ℚ → ℚ) (K L N : ℕ) (dataT : Ten3) (mask : Option Mask)
    (st : CRepState) (d : DataNZ) : Except Unit XR :=
  let l := PSLvalue logFin K L N dataT mask st d
  if l.isNaN then Except.error () else Except.ok l

/-- C9: `_PSLikelihood` raises the NumericalError condition exactly when the
computed pseudo-log-likelihood value is NaN, and returns exactly that value,
unraised, whenever it is not NaN. -/
theorem claim9_psl_nan_iff (logFin : ℚ → ℚ) (K L N : ℕ) (dataT : Ten3)
    (mask : Option Mask) (st : CRepState) (d : DataNZ) :
    (PSLikelihood logFin K L N dataT mask st d = Except.error () ↔
      (PSLvalue logFin K L N dataT mask st d).isNaN = true) ∧
    (PSLikelihood logFin K L N dataT mask st d =
        Except.ok (PSLvalue logFin K L N dataT mask st d) ↔
      (PSLvalue logFin K L N dataT mask st d).isNaN = false) := by
  unfold PSLikelihood
  rcases hb : (PSLvalue logFin K L N dataT mask st d).isNaN with _ | _ <;> simp [hb]

/-- Follows the spec's words for the masked evaluator (spec section 4.3: with a
mask "the whole summation is restricted to the held-out subset", all three
terms): the `A_nz * log(M_nz)` contribution is kept only at nonzero positions
whose coordinate is selected by the mask. -/
def maskAt (mask : Mask) (p : ℕ × ℕ × ℕ) : Bool :=
  ((mask.getD p.1 []).getD p.2.1 []).getD p.2.2 false

/-- Follows the spec's words (see `maskAt`): the fully masked pseudo-likelihood
value, for comparison with the source's `PSLvalue`. -/
def PSLvalue_specMasked (logFin : ℚ → ℚ) (K L N : ℕ) (dataT : Ten3) (mask : Mask)
    (st : CRepState) (d : DataNZ) : XR :=
  let lam := lambda0_full K L N st.u st.v st.w
  let base : ℚ := -(maskedSum mask lam) - st.eta * maskedSum mask dataT
  let alog := List.zipWith (fun p mv =>
      if maskAt mask p.1 then XR.mul (XR.fin p.2) (xlog logFin mv) else XR.fin 0)
    (List.zip d.subs d.vals) st.MNz
  XR.add (XR.fin base) (XR.sumList alog)

/-- A two-node state with a nontrivial cached `M_nz`, for the C4 counterexample. -/
def cex4State : CRepState :=
  { u := [[0], [0]], v := [[0], [0]], w := .assort [[0]], eta := 0,
    uOld := [[0], [0]], vOld := [[0], [0]], wOld := .assort [[0]], etaOld := 0,
    lambda0Nz := [0], MNz := [3], dataMNz := [1 / 3] }

/-- One nonzero entry at (layer 0, source 0, target 1). -/
def cex4Data : DataNZ := { subs := [(0, 0, 1)], vals := [1], tVals := [0] }

/-- A mask selecting only position (0, 1, 0) — the nonzero entry is held out. -/
def cex4Mask : Mask := [[[false, false], [true, false]]]

/-- The dense transposed adjacency tensor for the C4 counterexample. -/
def cex4DataT : Ten3 := [[[0, 0], [0, 0]]]

/-- C4 counterexample: on a masked evaluation whose mask excludes the only
nonzero position, the source's value still includes that position's
`A_nz * log(M_nz)` contribution, so it differs from the spec's fully masked
summation — the third term is not restricted to the mask. -/
theorem claim4_counterexample :
    PSLvalue (fun q => q) 1 1 2 cex4DataT (some cex4Mask) cex4State cex4Data ≠
      PSLvalue_specMasked (fun q => q) 1 1 2 cex4DataT cex4Mask cex4State cex4Data := by
  norm_num [PSLvalue, PSLvalue_specMasked, lambda0_full, lambdaAt, maskedSum, tenSum,
    maskAt, xlog, XR.add, XR.mul, XR.sumList, cex4State, cex4Data, cex4Mask, cex4DataT,
    getQ, getRow, getLayer, List.range_succ]

/-- C4 (amended): with a mask, the lambda0 term and the transposed-tensor term
are restricted to the masked positions, but the `A_nz * log(M_nz)` term still
ranges over all nonzero positions — it is the identical summand list as in the
unmasked evaluation. -/
theorem claim4_mask_restricts_two_terms (logFin : ℚ → ℚ) (K L N : ℕ) (dataT : Ten3)
    (mask : Mask) (st : CRepState) (d : DataNZ) :
    PSLvalue logFin K L N dataT (some mask) st d =
      XR.add (XR.fin (-(maskedSum mask (lambda0_full K L N st.u st.v st.w)) -
          st.eta * maskedSum mask dataT))
        (XR.sumList (List.zipWith (fun a mv => XR.mul (XR.fin a) (xlog logFin mv))
          d.vals st.MNz)) ∧
    PSLvalue logFin K L N dataT none st d =
      XR.add (XR.fin (-(tenSum (lambda0_full K L N st.u st.v st.w)) -
          st.eta * tenSum dataT))
        (XR.sumList (List.zipWith (fun a mv => XR.mul (XR.fin a) (xlog logFin mv))
          d.vals st.MNz)) :=
  ⟨rfl, rfl⟩

/-! The best-of-realizations selection (claim C7). -/

/-- IEEE comparison `a < b` on extended values: any comparison involving NaN is
false; -inf below finite below +inf. -/
def XR.ltb : XR → XR → Bool
  | .nan, _ => false
  | .fin _, .nan => false
  | .pinf, .nan => false
  | .ninf, .nan => false
  | .fin a, .fin b => decide (a < b)
  | .fin _, .pinf => true
  | .fin _, .ninf => false
  | .pinf, .fin _ => false
  | .pinf, .pinf => false
  | .pinf, .ninf => false
  | .ninf, .fin _ => true
  | .ninf, .pinf => true
  | .ninf, .ninf => false

lemma ltb_nan_right (x : XR) : XR.ltb x XR.nan = false := by cases x <;> rfl

lemma ltb_true_right_ne_nan {a b : XR} (h : XR.ltb a b = true) : b ≠ XR.nan := by
  intro hb
  rw [hb, ltb_nan_right] at h
  exact Bool.false_ne_true h

lemma ltb_trans {a b c : XR} (h1 : XR.ltb a b = true) (h2 : XR.ltb b c = true) :
    XR.ltb a c = true := by
  cases a <;> cases b <;> cases c <;> simp_all [XR.ltb] <;> linarith

lemma ltb_neg_trans {a b c : XR} (hb : b ≠ XR.nan) (h1 : XR.ltb a b = false)
    (h2 : XR.ltb b c = false) : XR.ltb a c = false := by
  cases a <;> cases b <;> cases c <;> simp_all [XR.ltb] <;> linarith

lemma ltb_cross {m v m0 : XR} (hmv : XR.ltb m v = false) (hm0v : XR.ltb m0 v = true) :
    XR.ltb m m0 = false := by
  cases m <;> cases v <;> cases m0 <;> simp_all [XR.ltb] <;> linarith

lemma ltb_cross2 {m0 v m : XR} (hv : v ≠ XR.nan) (h1 : XR.ltb m0 v = false)
    (h2 : XR.ltb m0 m = true) : XR.ltb v m = true := by
  cases m0 <;> cases v <;> cases m <;> simp_all [XR.ltb] <;> linarith

/-- The per-realization outcome the selection reads: the loglik value tracked
during the realization's loop and the realization's final parameter state. -/
structure RealRun where
  tracked : ℚ
  st : CRepState
deriving DecidableEq

/-- The likelihood value the selection compares for one realization (crep.py
lines 248-255): under the log policy the loglik tracked during the loop; under
the deltas policy the value recomputed explicitly by `_PSLikelihood` on the
realization's final state. -/
def rvalue (flag : String) (pslEval : CRepState → XR) (r : RealRun) : XR :=
  if flag = "deltas" then pslEval r.st else XR.fin r.tracked

/-- One pass of the best-realization comparison (crep.py lines 248-260):
`if maxL < loglik: _update_optimal_parameters(); maxL = loglik`. -/
def selectStep (flag : String) (pslEval : CRepState → XR) :
    XR × Option CRepState → RealRun → XR × Option CRepState :=
  fun acc r =>
    let loglik := rvalue flag pslEval r
    if XR.ltb acc.1 loglik then (loglik, some r.st) else acc

/-- Embeds the realization loop's selection of the output parameters (crep.py
lines 182, 245-260): starting from `maxL = -inf` and no kept parameters, fold
the strict-improvement comparison over the realization outcomes in order;
`pslEval` stands for the `_PSLikelihood` recomputation of the deltas policy. -/
def selectLoop (flag : String) (pslEval : CRepState → XR) (inf0 : ℚ)
    (runs : List RealRun) : XR × Option CRepState :=
  runs.foldl (selectStep flag pslEval) (XR.fin (-inf0), none)

lemma selectFold_spec (flag : String) (pslEval : CRepState → XR) (runs : List RealRun)
    (m0 : XR) (b0 : Option CRepState) (hm0 : m0 ≠ XR.nan)
    (hnn : ∀ r ∈ runs, rvalue flag pslEval r ≠ XR.nan) :
    (runs.foldl (selectStep flag pslEval) (m0, b0)).1 ≠ XR.nan ∧
    XR.ltb (runs.foldl (selectStep flag pslEval) (m0, b0)).1 m0 = false ∧
    (∀ r ∈ runs,
      XR.ltb (runs.foldl (selectStep flag pslEval) (m0, b0)).1 (rvalue flag pslEval r) = false) ∧
    ((runs.foldl (selectStep flag pslEval) (m0, b0) = (m0, b0) ∧
        ∀ r ∈ runs, XR.ltb m0 (rvalue flag pslEval r) = false) ∨
      (∃ i, ∃ hi : i < runs.length,
        (runs.foldl (selectStep flag pslEval) (m0, b0)).1 =
          rvalue flag pslEval (runs.get ⟨i, hi⟩) ∧
        (runs.foldl (selectStep flag pslEval) (m0, b0)).2 =
          some (runs.get ⟨i, hi⟩).st ∧
        XR.ltb m0 (runs.foldl (selectStep flag pslEval) (m0, b0)).1 = true ∧
        ∀ j, ∀ hj : j < runs.length, j < i →
          XR.ltb (rvalue flag pslEval (runs.get ⟨j, hj⟩))
            (runs.foldl (selectStep flag pslEval) (m0, b0)).1 = true)) := by
  induction runs generalizing m0 b0 with
  | nil =>
    refine ⟨hm0, ?_, by simp, Or.inl ⟨rfl, by simp⟩⟩
    cases m0 <;> simp [XR.ltb]
  | cons r rest ih =>
    have hv : rvalue flag pslEval r ≠ XR.nan := hnn r (by simp)
    have hrest : ∀ x ∈ rest, rvalue flag pslEval x ≠ XR.nan :=
      fun x hx => hnn x (by simp [hx])
    by_cases hlt : XR.ltb m0 (rvalue flag pslEval r) = true
    · have hfold : (r :: rest).foldl (selectStep flag pslEval) (m0, b0) =
          rest.foldl (selectStep flag pslEval) (rvalue flag pslEval r, some r.st) := by
        simp [List.foldl_cons, selectStep, hlt]
      obtain ⟨ihn, ih1, ih2, ih3⟩ := ih (rvalue flag pslEval r) (some r.st) hv hrest
      rw [hfold]
      refine ⟨ihn, ltb_cross ih1 hlt, ?_, ?_⟩
      · intro x hx
        rcases List.mem_cons.1 hx with rfl | hx
        · exact ih1
        · exact ih2 x hx
      · right
        rcases ih3 with ⟨heq, -⟩ | ⟨i, hi, h1, h2, h3, h4⟩
        · refine ⟨0, by simp, ?_, ?_, ?_, ?_⟩
          · rw [heq]
            rfl
          · rw [heq]
            rfl
          · rw [heq]
            exact hlt
          · intro j hj hji
            omega
        · refine ⟨i + 1, by simpa using Nat.succ_lt_succ hi, by simpa using h1,
            by simpa using h2, ltb_trans hlt h3, ?_⟩
          intro j hj hji
          cases j with
          | zero => simpa using h3
          | succ j' =>
            have hj' : j' < rest.length := by simpa using hj
            have := h4 j' hj' (by omega)
            simpa using this
    · have hfold : (r :: rest).foldl (selectStep flag pslEval) (m0, b0) =
          rest.foldl (selectStep flag pslEval) (m0, b0) := by
        simp [List.foldl_cons, selectStep, hlt]
      obtain ⟨ihn, ih1, ih2, ih3⟩ := ih m0 b0 hm0 hrest
      rw [hfold]
      refine ⟨ihn, ih1, ?_, ?_⟩
      · intro x hx
        rcases List.mem_cons.1 hx with rfl | hx
        · exact ltb_neg_trans hm0 ih1 (Bool.eq_false_iff.2 hlt)
        · exact ih2 x hx
      · rcases ih3 with ⟨heq, hall⟩ | ⟨i, hi, h1, h2, h3, h4⟩
        · left
          refine ⟨heq, ?_⟩
          intro x hx
          rcases List.mem_cons.1 hx with rfl | hx
          · exact Bool.eq_false_iff.2 hlt
          · exact hall x hx
        · right
          refine ⟨i + 1, by simpa using Nat.succ_lt_succ hi, by simpa using h1,
            by simpa using h2, h3, ?_⟩
          intro j hj hji
          cases j with
          | zero =>
            simpa using ltb_cross2 hv (Bool.eq_false_iff.2 hlt) h3
          | succ j' =>
            have hj' : j' < rest.length := by simpa using hj
            have := h4 j' hj' (by omega)
            simpa using this

/-- C7: across the realization loop, the final output parameters are those of
the realization with the strictly highest likelihood value: the final compared
value is not below any realization's value; nothing is kept when no realization
strictly beats the initial `-inf`; the kept state is the earliest realization
attaining the final value (every strictly earlier realization's value lies
strictly below it, so ties keep the earlier realization); and under the deltas
policy the compared value of a realization is the explicit `_PSLikelihood`
recomputation `pslEval` of its final state. -/
theorem claim7_best_realization (flag : String) (pslEval : CRepState → XR) (inf0 : ℚ)
    (runs : List RealRun) (hnn : ∀ r ∈ runs, rvalue flag pslEval r ≠ XR.nan) :
    (∀ r ∈ runs,
      XR.ltb (selectLoop flag pslEval inf0 runs).1 (rvalue flag pslEval r) = false) ∧
    ((selectLoop flag pslEval inf0 runs).2 = none →
      (selectLoop flag pslEval inf0 runs).1 = XR.fin (-inf0)) ∧
    (∀ s, (selectLoop flag pslEval inf0 runs).2 = some s →
      ∃ i, ∃ hi : i < runs.length,
        (selectLoop flag pslEval inf0 runs).1 = rvalue flag pslEval (runs.get ⟨i, hi⟩) ∧
        s = (runs.get ⟨i, hi⟩).st ∧
        ∀ j, ∀ hj : j < runs.length, j < i →
          XR.ltb (rvalue flag pslEval (runs.get ⟨j, hj⟩))
            (selectLoop flag pslEval inf0 runs).1 = true) ∧
    (flag = "deltas" → ∀ r ∈ runs, rvalue flag pslEval r = pslEval r.st) := by
  unfold selectLoop
  obtain ⟨hn, h1, h2, h3⟩ := selectFold_spec flag pslEval runs (XR.fin (-inf0)) none
    (by simp) hnn
  refine ⟨h2, ?_, ?_, ?_⟩
  · intro hnone
    rcases h3 with ⟨heq, -⟩ | ⟨i, hi, hh1, hh2, -, -⟩
    · rw [heq]
    · rw [hh2] at hnone
      exact absurd hnone (by simp)
  · intro s hs
    rcases h3 with ⟨heq, -⟩ | ⟨i, hi, hh1, hh2, -, h4⟩
    · rw [heq] at hs
      simp at hs
    · refine ⟨i, hi, hh1, ?_, h4⟩
      rw [hh2] at hs
      exact (Option.some.inj hs).symm
  · intro hf x hx
    simp [rvalue, hf]

/-- Two concrete realization outcomes for the C7 witness. -/
def wRuns : List RealRun :=
  [{ tracked := 1, st := zeroState }, { tracked := 2, st := movingState }]

/-- C7 witness: the selection theorem instantiated on two concrete realization
outcomes under the log policy. -/
theorem claim7_best_realization_witness :
    (∀ r ∈ wRuns, rvalue "log" (fun _ => XR.fin 0) r ≠ XR.nan) ∧
    ((∀ r ∈ wRuns,
        XR.ltb (selectLoop "log" (fun _ => XR.fin 0) 10 wRuns).1
          (rvalue "log" (fun _ => XR.fin 0) r) = false) ∧
      ((selectLoop "log" (fun _ => XR.fin 0) 10 wRuns).2 = none →
        (selectLoop "log" (fun _ => XR.fin 0) 10 wRuns).1 = XR.fin (-10)) ∧
      (∀ s, (selectLoop "log" (fun _ => XR.fin 0) 10 wRuns).2 = some s →
        ∃ i, ∃ hi : i < wRuns.length,
          (selectLoop "log" (fun _ => XR.fin 0) 10 wRuns).1 =
            rvalue "log" (fun _ => XR.fin 0) (wRuns.get ⟨i, hi⟩) ∧
          s = (wRuns.get ⟨i, hi⟩).st ∧
          ∀ j, ∀ hj : j < wRuns.length, j < i →
            XR.ltb (rvalue "log" (fun _ => XR.fin 0) (wRuns.get ⟨j, hj⟩))
              (selectLoop "log" (fun _ => XR.fin 0) 10 wRuns).1 = true) ∧
      (("log" : String) = "deltas" →
        ∀ r ∈ wRuns, rvalue "log" (fun _ => XR.fin 0) r = XR.fin 0)) :=
  ⟨fun r _ => by simp [rvalue],
    claim7_best_realization "log" (fun _ => XR.fin 0) 10 wRuns (fun r _ => by simp [rvalue])⟩

end CRepModel
